import Mathlib

/-!
Verification of the roulettecoin-core proof-of-work core against its
natural-language specification.

Embedded source files:
 - `src/hash.h` : the `RouletteHash` template function (16-round chained,
   selector-dispatched 512-bit hashing).
 - `src/pow.cpp` : `GetNextWorkRequired`, `CalculateNextWorkRequired`,
   `CheckProofOfWork`.

The sixteen 512-bit hash primitives (the sphlib `sph_*512` functions) are an
external library, out of scope per the spec; they are abstracted as fields of
a `SphPrimitives` structure, each mapping a byte list to a byte list. Bytes
are modelled as `Nat` values (the code only ever inspects `hash[0] & 0xf`,
so no byte-range invariant is needed for the dispatch equations).

The compact-target codec (`arith_uint256::SetCompact` / `GetCompact`) and the
ancestor lookup (`CBlockIndex::GetAncestor`) live outside the given sources;
they are modelled from the spec (section 4.1 and section 6), as marked on
their doc comments.
-/

namespace RouletteCoin

/-- The external 512-bit primitive library: one arbitrary-length-input,
64-byte-output function per algorithm named in `src/hash.h`. Kept abstract,
as the spec places the primitive bodies out of scope. -/
structure SphPrimitives where
  blake512 : List Nat → List Nat
  bmw512 : List Nat → List Nat
  cubehash512 : List Nat → List Nat
  echo512 : List Nat → List Nat
  fugue512 : List Nat → List Nat
  groestl512 : List Nat → List Nat
  hamsi512 : List Nat → List Nat
  jh512 : List Nat → List Nat
  keccak512 : List Nat → List Nat
  luffa512 : List Nat → List Nat
  sha512 : List Nat → List Nat
  shabal512 : List Nat → List Nat
  shavite512 : List Nat → List Nat
  simd512 : List Nat → List Nat
  skein512 : List Nat → List Nat
  whirlpool512 : List Nat → List Nat

/-- One iteration of the `for` loop in `RouletteHash` (`src/hash.h` lines
317-405): `hdec = hash[0] & 0xf`, then the 16-way `switch` dispatching to the
primitive re-initialised on the spot; the `default` branch does nothing. -/
def rouletteRound (P : SphPrimitives) (hash : List Nat) : List Nat :=
  let hdec := hash.headD 0 &&& 0xf
  match hdec with
  | 0 => P.blake512 hash
  | 1 => P.bmw512 hash
  | 2 => P.cubehash512 hash
  | 3 => P.echo512 hash
  | 4 => P.fugue512 hash
  | 5 => P.groestl512 hash
  | 6 => P.hamsi512 hash
  | 7 => P.jh512 hash
  | 8 => P.keccak512 hash
  | 9 => P.luffa512 hash
  | 10 => P.sha512 hash
  | 11 => P.shabal512 hash
  | 12 => P.shavite512 hash
  | 13 => P.simd512 hash
  | 14 => P.skein512 hash
  | 15 => P.whirlpool512 hash
  | _ => hash

/-- `n` iterations of the round loop of `RouletteHash`. -/
def rouletteRounds (P : SphPrimitives) : Nat → List Nat → List Nat
  | 0, hash => hash
  | n + 1, hash => rouletteRounds P n (rouletteRound P hash)

/-- `RouletteHash` (`src/hash.h` lines 292-408): seed the 64-byte running
digest with SHA-512 of the input, run the selector-dispatched loop 16 times,
and return the first 32 bytes (`uint256(std::vector(hash, hash + 32))`). -/
def rouletteHash (P : SphPrimitives) (input : List Nat) : List Nat :=
  (rouletteRounds P 16 (P.sha512 input)).take 32

/-- The fixed index-to-algorithm table of the spec (section 4.2):
`0=BLAKE-512, 1=BMW-512, 2=CubeHash-512, 3=ECHO-512, 4=Fugue-512,
5=Groestl-512, 6=Hamsi-512, 7=JH-512, 8=Keccak-512, 9=Luffa-512, 10=SHA-512,
11=Shabal-512, 12=SHAVITE3-512, 13=SIMD-512, 14=Skein-512, 15=Whirlpool-512`. -/
def primitiveTable (P : SphPrimitives) : List (List Nat → List Nat) :=
  [P.blake512, P.bmw512, P.cubehash512, P.echo512, P.fugue512, P.groestl512,
   P.hamsi512, P.jh512, P.keccak512, P.luffa512, P.sha512, P.shabal512,
   P.shavite512, P.simd512, P.skein512, P.whirlpool512]

/-- Reference round, following the spec's words: `selector = digest[0] & 0x0F`
(low nibble of the first byte of the current digest); apply the primitive at
that index in the fixed table to the full current digest. -/
def refRound (P : SphPrimitives) (digest : List Nat) : List Nat :=
  ((primitiveTable P).getD (digest.headD 0 &&& 0x0F) id) digest

/-- `n` reference rounds. -/
def refRounds (P : SphPrimitives) : Nat → List Nat → List Nat
  | 0, digest => digest
  | n + 1, digest => refRounds P n (refRound P digest)

/-- Reference definition of the chained digest from the spec (section 4.2):
digest starts as SHA-512 of the input; exactly 16 table-dispatched rounds;
the result is the first 32 bytes of the final digest. -/
def rouletteHashRef (P : SphPrimitives) (input : List Nat) : List Nat :=
  (refRounds P 16 (P.sha512 input)).take 32

theorem rouletteRound_eq_refRound (P : SphPrimitives) (hash : List Nat) :
    rouletteRound P hash = refRound P hash := by
  unfold rouletteRound refRound
  have hb : hash.headD 0 &&& 0xf < 16 := Nat.lt_succ_of_le Nat.and_le_right
  generalize hash.headD 0 &&& 0xf = b at *
  interval_cases b <;> rfl

theorem rouletteRounds_eq_refRounds (P : SphPrimitives) (n : Nat)
    (hash : List Nat) : rouletteRounds P n hash = refRounds P n hash := by
  induction n generalizing hash with
  | zero => rfl
  | succ n ih =>
    simp only [rouletteRounds, refRounds, rouletteRound_eq_refRound]
    exact ih _

/-- A concrete instantiation of the primitive library, used only to witness
universally quantified statements at an explicit input. -/
def trivialPrims : SphPrimitives :=
  ⟨id, id, id, id, id, id, id, id, id, id, id, id, id, id, id, id⟩

/-- C1: for every non-empty input byte sequence, `RouletteHash` equals the
reference definition: start from SHA-512 of the input, run exactly 16 rounds
each applying the table-indexed primitive selected by the low nibble of the
digest's first byte to the whole 64-byte digest, and return the first 32
bytes of the final digest. -/
theorem rouletteHash_eq_ref (P : SphPrimitives) (input : List Nat)
    (_hne : input ≠ []) : rouletteHash P input = rouletteHashRef P input := by
  unfold rouletteHash rouletteHashRef
  rw [rouletteRounds_eq_refRounds]

theorem rouletteHash_eq_ref_witness :
    ([0] : List Nat) ≠ [] ∧
      rouletteHash trivialPrims [0] = rouletteHashRef trivialPrims [0] :=
  ⟨by decide, rouletteHash_eq_ref trivialPrims [0] (by decide)⟩

/-- C8: `RouletteHash` is defined on every input, including the empty byte
sequence; on the empty input it returns the first 32 bytes of the 16 chained
rounds applied to SHA-512 of the empty string (no input byte is read). -/
theorem rouletteHash_empty (P : SphPrimitives) :
    rouletteHash P [] = (refRounds P 16 (P.sha512 [])).take 32 := by
  unfold rouletteHash
  rw [rouletteRounds_eq_refRounds]

/-- C9: `RouletteHash` is deterministic — it is a pure function of the input
bytes (and of the fixed primitive library), so equal inputs give equal
outputs. -/
theorem rouletteHash_deterministic (P : SphPrimitives) (x y : List Nat)
    (h : x = y) : rouletteHash P x = rouletteHash P y := by
  rw [h]

theorem rouletteHash_deterministic_witness :
    rouletteHash trivialPrims [66, 84, 67] = rouletteHash trivialPrims [66, 84, 67] :=
  rouletteHash_deterministic trivialPrims [66, 84, 67] [66, 84, 67] rfl

/-- C10: `RouletteHash` factors through the initial SHA-512 — the input is
read only to compute the round-0 digest, so two inputs with equal SHA-512
digests have equal RouletteHash values. -/
theorem rouletteHash_factors_through_sha512 (P : SphPrimitives)
    (x y : List Nat) (h : P.sha512 x = P.sha512 y) :
    rouletteHash P x = rouletteHash P y := by
  unfold rouletteHash
  rw [h]

theorem rouletteHash_factors_through_sha512_witness :
    rouletteHash trivialPrims [] = rouletteHash trivialPrims [] :=
  rouletteHash_factors_through_sha512 trivialPrims [] [] rfl

/-! ## Compact-target codec and 256-bit arithmetic

`arith_uint256` is an external collaborator (spec sections 1 and 6); its
compact codec is modelled from spec section 4.1. -/

/-- Fuel-driven binary length: `bitlenGo f n` is the number of significant
bits of `n`, correct whenever `n ≤ f`. -/
def bitlenGo : Nat → Nat → Nat
  | _, 0 => 0
  | 0, _ + 1 => 0
  | f + 1, n + 1 => bitlenGo f ((n + 1) / 2) + 1

/-- Number of significant bits of `n` (`n < 2 ^ bitlen n`, and minimal so). -/
def bitlen (n : Nat) : Nat := bitlenGo n n

theorem bitlenGo_lt (f : Nat) : ∀ n : Nat, n ≤ f → n < 2 ^ bitlenGo f n := by
  induction f with
  | zero =>
    intro n hn
    interval_cases n
    simp [bitlenGo]
  | succ f ih =>
    intro n hn
    match n with
    | 0 => simp [bitlenGo]
    | m + 1 =>
      have hfuel : (m + 1) / 2 ≤ f := by omega
      have hrec := ih ((m + 1) / 2) hfuel
      have hstep : bitlenGo (f + 1) (m + 1) = bitlenGo f ((m + 1) / 2) + 1 := rfl
      rw [hstep]
      have hpow : 2 ^ (bitlenGo f ((m + 1) / 2) + 1)
          = 2 ^ bitlenGo f ((m + 1) / 2) * 2 := pow_succ 2 _
      omega

theorem lt_two_pow_bitlen (n : Nat) : n < 2 ^ bitlen n :=
  bitlenGo_lt n n le_rfl

/-- Result of decoding a compact (`nBits`) target. -/
structure CompactDecoded where
  target : Nat
  negative : Bool
  overflow : Bool
deriving DecidableEq

/-- Modelled from the spec (section 4.1, `Decode`), standing in for the
external `arith_uint256::SetCompact`: the top byte of the 32-bit value is the
exponent `e`, the low 23 bits are the mantissa `m` (the embedded sign bit
`0x00800000` is not part of the magnitude); `target = m >> (8*(3-e))` when
`e ≤ 3` and `m << (8*(e-3))` (kept to 256 bits) otherwise; `negative` is the
sign bit; `overflow` means the shifted mantissa would need more than 32 bytes.
Arithmetic (`/ 2^24`, `% 2^23`) replaces the bit masking of the byte fields. -/
def decodeCompact (nCompact : Nat) : CompactDecoded :=
  let nSize := nCompact / 2 ^ 24
  let nWord := nCompact % 2 ^ 23
  { target :=
      if nSize ≤ 3 then nWord / 2 ^ (8 * (3 - nSize))
      else nWord * 2 ^ (8 * (nSize - 3)) % 2 ^ 256
    negative := decide (nCompact / 2 ^ 23 % 2 = 1)
    overflow := decide (nWord ≠ 0 ∧ (34 < nSize ∨ (0xff < nWord ∧ 33 < nSize)
      ∨ (0xffff < nWord ∧ 32 < nSize))) }

/-- Modelled from the spec (section 4.1, `Encode`), standing in for the
external `arith_uint256::GetCompact`: take the minimal byte size `s` of the
target, shift the value into a 3-byte mantissa, normalise right by one byte
(bumping the exponent) if the mantissa's top bit `0x00800000` is set, and
pack mantissa plus `s << 24`. The packing `|=` is addition here because the
mantissa occupies only the low 24 bits. -/
def encodeCompact (target : Nat) : Nat :=
  let nSize := (bitlen target + 7) / 8
  let nCompact :=
    if nSize ≤ 3 then target * 2 ^ (8 * (3 - nSize))
    else target / 2 ^ (8 * (nSize - 3))
  if 2 ^ 23 ≤ nCompact then nCompact / 2 ^ 8 + (nSize + 1) * 2 ^ 24
  else nCompact + nSize * 2 ^ 24

/-- Conversion of a C++ `int64_t` into the unsigned 256-bit domain, as the
`arith_uint256` constructor from `uint64_t` does: two's-complement wrap. -/
def toU64 (x : Int) : Nat := (x % (2 ^ 64 : Int)).toNat

/-! ## Consensus parameters and chain index -/

/-- The consensus parameters read by `src/pow.cpp` (spec section 3). -/
structure ConsensusParams where
  powLimit : Nat
  nPowTargetTimespan : Int
  nPowTargetSpacing : Int
  fPowAllowMinDifficultyBlocks : Bool
  fPowNoRetargeting : Bool

/-- `Consensus::Params::DifficultyAdjustmentInterval()`: blocks per retarget
window, `nPowTargetTimespan / nPowTargetSpacing` with C++ (truncating)
division. Modelled from the spec (section 3), the method body being outside
the given sources. -/
def ConsensusParams.interval (p : ConsensusParams) : Int :=
  p.nPowTargetTimespan.tdiv p.nPowTargetSpacing

/-- Read-only view of a block-index entry: height, timestamp, stored compact
bits, and the previous-header link (spec section 3, `BlockHeaderView`). -/
inductive CBlockIndex where
  | mk (nHeight : Int) (nTime : Int) (nBits : Nat) (pprev : Option CBlockIndex)

def CBlockIndex.nHeight : CBlockIndex → Int
  | .mk h _ _ _ => h

def CBlockIndex.nTime : CBlockIndex → Int
  | .mk _ t _ _ => t

def CBlockIndex.nBits : CBlockIndex → Nat
  | .mk _ _ b _ => b

def CBlockIndex.pprev : CBlockIndex → Option CBlockIndex
  | .mk _ _ _ p => p

/-- `CBlockIndex::GetAncestor(height)`: the ancestor of the given height, or
failure when out of range. Modelled from the spec (section 6: "ancestor at
height H lookup (fails if H is out of range)") by walking `pprev`. -/
def getAncestor (height : Int) : CBlockIndex → Option CBlockIndex
  | .mk h t b pp =>
    if h = height then some (.mk h t b pp)
    else
      match pp with
      | none => none
      | some p => getAncestor height p

/-! ## `src/pow.cpp` -/

/-- The retarget computation of `CalculateNextWorkRequired` (`src/pow.cpp`
lines 56-71), after the `fPowNoRetargeting` early return: clamp
`nActualTimespan` into `[nPowTargetTimespan/4, nPowTargetTimespan*4]` by the
two sequential `if`s, decode the previous compact bits, multiply by the
timespan and divide by `nPowTargetTimespan` in unsigned 256-bit arithmetic,
and clamp the result at `powLimit`. -/
def newTargetValue (nBits : Nat) (nPowTargetTimespan : Int) (powLimit : Nat)
    (nActualTimespanIn : Int) : Nat :=
  let nActualTimespan :=
    if nActualTimespanIn < nPowTargetTimespan.tdiv 4 then nPowTargetTimespan.tdiv 4
    else nActualTimespanIn
  let nActualTimespan :=
    if nActualTimespan > nPowTargetTimespan * 4 then nPowTargetTimespan * 4
    else nActualTimespan
  let bnNew := (decodeCompact nBits).target
  let bnNew := bnNew * toU64 nActualTimespan % 2 ^ 256
  let bnNew := bnNew / toU64 nPowTargetTimespan
  if powLimit < bnNew then powLimit else bnNew

/-- `CalculateNextWorkRequired` (`src/pow.cpp` lines 50-78): return the bits
unchanged under `fPowNoRetargeting`, otherwise re-encode the retargeted
value computed from `nActualTimespan = pindexLast->GetBlockTime() -
nFirstBlockTime`. -/
def calculateNextWorkRequired (pindexLast : CBlockIndex)
    (nFirstBlockTime : Int) (params : ConsensusParams) : Nat :=
  if params.fPowNoRetargeting then pindexLast.nBits
  else
    encodeCompact (newTargetValue pindexLast.nBits params.nPowTargetTimespan
      params.powLimit (pindexLast.nTime - nFirstBlockTime))

/-- The ancestor walk of `GetNextWorkRequired` (`src/pow.cpp` lines 32-35):
`while (pindex->pprev && pindex->nHeight % interval != 0 && pindex->nBits ==
nProofOfWorkLimit) pindex = pindex->pprev`. -/
def walkNonMin (interval : Int) (nProofOfWorkLimit : Nat) :
    CBlockIndex → CBlockIndex
  | .mk h t b none => .mk h t b none
  | .mk h t b (some p) =>
    if h.tmod interval ≠ 0 ∧ b = nProofOfWorkLimit then
      walkNonMin interval nProofOfWorkLimit p
    else .mk h t b (some p)

/-- `GetNextWorkRequired` (`src/pow.cpp` lines 14-48). The two `assert`s of
the retarget branch (`nHeightFirst >= 0` and `pindexFirst`) are modelled as
`none`; every other path yields `some` bits. `blockTime` is
`pblock->GetBlockTime()`. -/
def getNextWorkRequired (pindexLast : CBlockIndex) (blockTime : Int)
    (params : ConsensusParams) : Option Nat :=
  let nProofOfWorkLimit := encodeCompact params.powLimit
  if (pindexLast.nHeight + 1).tmod params.interval ≠ 0 then
    if params.fPowAllowMinDifficultyBlocks then
      if blockTime > pindexLast.nTime + params.nPowTargetSpacing * 2 then
        some nProofOfWorkLimit
      else some (walkNonMin params.interval nProofOfWorkLimit pindexLast).nBits
    else some pindexLast.nBits
  else
    let nHeightFirst := pindexLast.nHeight - (params.interval - 1)
    if nHeightFirst < 0 then none
    else
      match getAncestor nHeightFirst pindexLast with
      | none => none
      | some pindexFirst =>
        some (calculateNextWorkRequired pindexLast pindexFirst.nTime params)

/-- The two failure kinds of `CheckProofOfWork` (spec section 7): the target
range check and the work comparison, told apart in the source by the two
distinct diagnostic messages. -/
inductive PowError where
  | InvalidTarget
  | InsufficientWork
deriving DecidableEq

/-- `CheckProofOfWork` (`src/pow.cpp` lines 80-103): decode `nBits` with the
negative and overflow flags; reject (`InvalidTarget`) when `fNegative ||
bnTarget == 0 || fOverflow || bnTarget > powLimit`; reject
(`InsufficientWork`) when `hash > bnTarget`; otherwise accept. -/
def CheckProofOfWork (hash : Nat) (nBits : Nat) (params : ConsensusParams) :
    Except PowError Unit :=
  let d := decodeCompact nBits
  if d.negative || d.target == 0 || d.overflow
      || decide (params.powLimit < d.target) then
    Except.error PowError.InvalidTarget
  else if decide (d.target < hash) then
    Except.error PowError.InsufficientWork
  else Except.ok ()

theorem checkPoW_ok_iff (hash nBits : Nat) (p : ConsensusParams) :
    CheckProofOfWork hash nBits p = Except.ok () ↔
      ((decodeCompact nBits).negative = false
        ∧ (decodeCompact nBits).overflow = false
        ∧ (decodeCompact nBits).target ≠ 0
        ∧ (decodeCompact nBits).target ≤ p.powLimit
        ∧ hash ≤ (decodeCompact nBits).target) := by
  by_cases hneg : (decodeCompact nBits).negative = true <;>
  by_cases hovf : (decodeCompact nBits).overflow = true <;>
  by_cases h0 : (decodeCompact nBits).target = 0 <;>
  by_cases hpl : p.powLimit < (decodeCompact nBits).target <;>
  by_cases hh : (decodeCompact nBits).target < hash <;>
    simp [CheckProofOfWork, hneg, hovf, h0, hpl, hh] <;> omega

theorem checkPoW_invalid_iff (hash nBits : Nat) (p : ConsensusParams) :
    CheckProofOfWork hash nBits p = Except.error PowError.InvalidTarget ↔
      ((decodeCompact nBits).negative = true
        ∨ (decodeCompact nBits).overflow = true
        ∨ (decodeCompact nBits).target = 0
        ∨ p.powLimit < (decodeCompact nBits).target) := by
  by_cases hneg : (decodeCompact nBits).negative = true <;>
  by_cases hovf : (decodeCompact nBits).overflow = true <;>
  by_cases h0 : (decodeCompact nBits).target = 0 <;>
  by_cases hpl : p.powLimit < (decodeCompact nBits).target <;>
  by_cases hh : (decodeCompact nBits).target < hash <;>
    simp [CheckProofOfWork, hneg, hovf, h0, hpl, hh] <;> omega

theorem checkPoW_insufficient_iff (hash nBits : Nat) (p : ConsensusParams) :
    CheckProofOfWork hash nBits p = Except.error PowError.InsufficientWork ↔
      ((decodeCompact nBits).negative = false
        ∧ (decodeCompact nBits).overflow = false
        ∧ (decodeCompact nBits).target ≠ 0
        ∧ (decodeCompact nBits).target ≤ p.powLimit
        ∧ (decodeCompact nBits).target < hash) := by
  by_cases hneg : (decodeCompact nBits).negative = true <;>
  by_cases hovf : (decodeCompact nBits).overflow = true <;>
  by_cases h0 : (decodeCompact nBits).target = 0 <;>
  by_cases hpl : p.powLimit < (decodeCompact nBits).target <;>
  by_cases hh : (decodeCompact nBits).target < hash <;>
    simp [CheckProofOfWork, hneg, hovf, h0, hpl, hh] <;> omega

/-- C2: `CheckProofOfWork` succeeds exactly when the decoded target has both
flags clear, is nonzero, is at most `powLimit`, and the hash is at most the
target; every failure is `InvalidTarget` exactly on a bad target range and
`InsufficientWork` exactly on a valid range with `hash > target`; in
particular, with a valid range, `hash = target` succeeds and
`hash = target + 1` fails with `InsufficientWork`. -/
theorem checkProofOfWork_spec (hash nBits : Nat) (p : ConsensusParams) :
    (CheckProofOfWork hash nBits p = Except.ok () ↔
      ((decodeCompact nBits).negative = false
        ∧ (decodeCompact nBits).overflow = false
        ∧ (decodeCompact nBits).target ≠ 0
        ∧ (decodeCompact nBits).target ≤ p.powLimit
        ∧ hash ≤ (decodeCompact nBits).target))
    ∧ (CheckProofOfWork hash nBits p = Except.error PowError.InvalidTarget ↔
      ((decodeCompact nBits).negative = true
        ∨ (decodeCompact nBits).overflow = true
        ∨ (decodeCompact nBits).target = 0
        ∨ p.powLimit < (decodeCompact nBits).target))
    ∧ (CheckProofOfWork hash nBits p = Except.error PowError.InsufficientWork ↔
      ((decodeCompact nBits).negative = false
        ∧ (decodeCompact nBits).overflow = false
        ∧ (decodeCompact nBits).target ≠ 0
        ∧ (decodeCompact nBits).target ≤ p.powLimit
        ∧ (decodeCompact nBits).target < hash))
    ∧ (((decodeCompact nBits).negative = false
        ∧ (decodeCompact nBits).overflow = false
        ∧ (decodeCompact nBits).target ≠ 0
        ∧ (decodeCompact nBits).target ≤ p.powLimit) →
      (CheckProofOfWork (decodeCompact nBits).target nBits p = Except.ok ()
        ∧ CheckProofOfWork ((decodeCompact nBits).target + 1) nBits p
            = Except.error PowError.InsufficientWork)) := by
  refine ⟨checkPoW_ok_iff hash nBits p, checkPoW_invalid_iff hash nBits p,
    checkPoW_insufficient_iff hash nBits p, ?_⟩
  rintro ⟨ha, hb, hc, hd⟩
  constructor
  · exact (checkPoW_ok_iff _ nBits p).2 ⟨ha, hb, hc, hd, le_rfl⟩
  · exact (checkPoW_insufficient_iff _ nBits p).2 ⟨ha, hb, hc, hd, by omega⟩

/-- Clamp of an integer into `[lo, hi]`, as the claim words it. -/
def clampI (x lo hi : Int) : Int := min (max x lo) hi

/-- Reference definition of the retarget step, following the claim for C3:
`Encode(min(powLimit, Decode(lastHeader.bits).target *
clamp(lastHeader.timestamp - firstBlockTime, targetTimespan/4,
targetTimespan*4) / targetTimespan))`, with the multiplication and division
in unsigned 256-bit arithmetic and truncating division. -/
def calcNextWorkRef (pindexLast : CBlockIndex) (nFirstBlockTime : Int)
    (params : ConsensusParams) : Nat :=
  encodeCompact (min params.powLimit
    ((decodeCompact pindexLast.nBits).target
        * toU64 (clampI (pindexLast.nTime - nFirstBlockTime)
            (params.nPowTargetTimespan.tdiv 4) (params.nPowTargetTimespan * 4))
        % 2 ^ 256
      / toU64 params.nPowTargetTimespan))

/-- C3: with `noRetargeting = false`, `CalculateNextWorkRequired` returns the
encoding of `min(powLimit, Decode(bits).target * clamp(actualTimespan,
targetTimespan/4, targetTimespan*4) / targetTimespan)`; with
`noRetargeting = true` it returns the last header's bits unchanged. -/
theorem seqClamp (a lo hi : Int) :
    (if (if a < lo then lo else a) > hi then hi
      else if a < lo then lo else a) = clampI a lo hi := by
  unfold clampI
  split_ifs <;> omega

theorem iteMin (a b : Nat) : (if a < b then a else b) = min a b := by
  split_ifs <;> omega

theorem calculateNextWorkRequired_eq_ref (pindexLast : CBlockIndex)
    (nFirstBlockTime : Int) (params : ConsensusParams) :
    (params.fPowNoRetargeting = false →
      calculateNextWorkRequired pindexLast nFirstBlockTime params
        = calcNextWorkRef pindexLast nFirstBlockTime params)
    ∧ (params.fPowNoRetargeting = true →
      calculateNextWorkRequired pindexLast nFirstBlockTime params
        = pindexLast.nBits) := by
  constructor
  · intro hret
    unfold calculateNextWorkRequired newTargetValue calcNextWorkRef
    rw [hret]
    simp only [Bool.false_eq_true, if_false]
    rw [seqClamp, iteMin]
  · intro hret
    unfold calculateNextWorkRequired
    rw [hret]
    simp

theorem decodeCompact_target (nCompact : Nat) :
    (decodeCompact nCompact).target =
      if nCompact / 2 ^ 24 ≤ 3 then
        nCompact % 2 ^ 23 / 2 ^ (8 * (3 - nCompact / 2 ^ 24))
      else nCompact % 2 ^ 23 * 2 ^ (8 * (nCompact / 2 ^ 24 - 3)) % 2 ^ 256 := rfl

theorem decode_pack (c s : Nat) (hc : c < 2 ^ 23) :
    (decodeCompact (c + s * 2 ^ 24)).target =
      if s ≤ 3 then c / 2 ^ (8 * (3 - s))
      else c * 2 ^ (8 * (s - 3)) % 2 ^ 256 := by
  rw [decodeCompact_target]
  have h1 : (c + s * 2 ^ 24) / 2 ^ 24 = s := by omega
  have h2 : (c + s * 2 ^ 24) % 2 ^ 23 = c := by omega
  rw [h1, h2]

/-- Re-decoding an encoded target never yields more than the original value
(the codec only truncates mantissa bits below the top three bytes). -/
theorem decode_encode_le (t : Nat) :
    (decodeCompact (encodeCompact t)).target ≤ t := by
  have hbl : t < 2 ^ bitlen t := lt_two_pow_bitlen t
  unfold encodeCompact
  dsimp only
  set s := (bitlen t + 7) / 8 with hs
  have hble : bitlen t ≤ 8 * s := by omega
  have ht8 : t < 2 ^ (8 * s) :=
    lt_of_lt_of_le hbl (Nat.pow_le_pow_right (by norm_num) hble)
  by_cases hs3 : s ≤ 3
  · rw [if_pos hs3]
    interval_cases s <;> split_ifs with hnorm <;>
      rw [decode_pack _ _ (by omega)] <;>
      split_ifs with hdec <;> omega
  · rw [if_neg hs3]
    have hK : (0 : Nat) < 2 ^ (8 * (s - 3)) := pow_pos (by norm_num) _
    have hc24 : t / 2 ^ (8 * (s - 3)) < 2 ^ 24 := by
      rw [Nat.div_lt_iff_lt_mul hK]
      calc t < 2 ^ (8 * s) := ht8
        _ = 2 ^ 24 * 2 ^ (8 * (s - 3)) := by
            rw [← pow_add]
            congr 1
            omega
    split_ifs with hnorm
    · have hc23 : t / 2 ^ (8 * (s - 3)) / 2 ^ 8 < 2 ^ 23 := by omega
      rw [decode_pack _ _ hc23, if_neg (by omega : ¬ s + 1 ≤ 3)]
      have hdd : t / 2 ^ (8 * (s - 3)) / 2 ^ 8 = t / 2 ^ (8 * (s - 2)) := by
        rw [Nat.div_div_eq_div_mul, ← pow_add]
        congr 2
        omega
      have he : 8 * (s + 1 - 3) = 8 * (s - 2) := by omega
      rw [hdd, he]
      calc t / 2 ^ (8 * (s - 2)) * 2 ^ (8 * (s - 2)) % 2 ^ 256
          ≤ t / 2 ^ (8 * (s - 2)) * 2 ^ (8 * (s - 2)) := Nat.mod_le _ _
        _ ≤ t := Nat.div_mul_le_self t _
    · have hc23 : t / 2 ^ (8 * (s - 3)) < 2 ^ 23 := by omega
      rw [decode_pack _ _ hc23, if_neg hs3]
      calc t / 2 ^ (8 * (s - 3)) * 2 ^ (8 * (s - 3)) % 2 ^ 256
          ≤ t / 2 ^ (8 * (s - 3)) * 2 ^ (8 * (s - 3)) := Nat.mod_le _ _
        _ ≤ t := Nat.div_mul_le_self t _

theorem calculateNextWorkRequired_eq_ref_witness :
    calculateNextWorkRequired (CBlockIndex.mk 2015 1000000 0x1c010000 none)
        999000 ⟨2 ^ 224, 1209600, 600, false, false⟩
      = calcNextWorkRef (CBlockIndex.mk 2015 1000000 0x1c010000 none)
        999000 ⟨2 ^ 224, 1209600, 600, false, false⟩ :=
  (calculateNextWorkRequired_eq_ref (CBlockIndex.mk 2015 1000000 0x1c010000 none)
    999000 ⟨2 ^ 224, 1209600, 600, false, false⟩).1 rfl

theorem checkProofOfWork_spec_witness :
    CheckProofOfWork (decodeCompact 0x1d00ffff).target 0x1d00ffff
        ⟨2 ^ 224, 1209600, 600, false, false⟩ = Except.ok ()
      ∧ CheckProofOfWork ((decodeCompact 0x1d00ffff).target + 1) 0x1d00ffff
        ⟨2 ^ 224, 1209600, 600, false, false⟩
          = Except.error PowError.InsufficientWork :=
  (checkProofOfWork_spec 0 0x1d00ffff
    ⟨2 ^ 224, 1209600, 600, false, false⟩).2.2.2
    ⟨by decide, by decide, by decide, by decide⟩

/-- C4 counterexample: with `noRetargeting = true`, `CalculateNextWorkRequired`
returns the last header's bits unchanged, which may decode to a target above
`powLimit`: here `powLimit = 1` while the returned bits decode to 4096. -/
theorem calculateNextWork_powLimit_counterexample :
    (decodeCompact (calculateNextWorkRequired
        (CBlockIndex.mk 5 100 0x03001000 none) 0
        ⟨1, 8, 2, false, true⟩)).target
      > (⟨1, 8, 2, false, true⟩ : ConsensusParams).powLimit := by decide

/-- C4 (amended): whenever `noRetargeting = false`, the compact bits returned
by `CalculateNextWorkRequired` decode to a target that does not exceed
`powLimit`; with `noRetargeting = true` the code passes the previous bits
through unchecked, so the bound needs that hypothesis. -/
theorem calculateNextWork_le_powLimit (pindexLast : CBlockIndex)
    (nFirstBlockTime : Int) (params : ConsensusParams)
    (hret : params.fPowNoRetargeting = false) :
    (decodeCompact (calculateNextWorkRequired pindexLast nFirstBlockTime
      params)).target ≤ params.powLimit := by
  unfold calculateNextWorkRequired
  rw [hret]
  simp only [Bool.false_eq_true, if_false]
  have hle : newTargetValue pindexLast.nBits params.nPowTargetTimespan
      params.powLimit (pindexLast.nTime - nFirstBlockTime) ≤ params.powLimit := by
    unfold newTargetValue
    dsimp only
    split_ifs with h <;> omega
  calc (decodeCompact (encodeCompact (newTargetValue pindexLast.nBits
        params.nPowTargetTimespan params.powLimit
        (pindexLast.nTime - nFirstBlockTime)))).target
      ≤ newTargetValue pindexLast.nBits params.nPowTargetTimespan
        params.powLimit (pindexLast.nTime - nFirstBlockTime) :=
        decode_encode_le _
    _ ≤ params.powLimit := hle

theorem calculateNextWork_le_powLimit_witness :
    (decodeCompact (calculateNextWorkRequired
        (CBlockIndex.mk 2015 1000000 0x1c010000 none) 999000
        ⟨2 ^ 224, 1209600, 600, false, false⟩)).target
      ≤ (⟨2 ^ 224, 1209600, 600, false, false⟩ : ConsensusParams).powLimit :=
  calculateNextWork_le_powLimit (CBlockIndex.mk 2015 1000000 0x1c010000 none)
    999000 ⟨2 ^ 224, 1209600, 600, false, false⟩ rfl

set_option maxRecDepth 100000 in
/-- C5 counterexample: a 4-block chain with `interval = 4` whose tip has
height 3, so `height + 1` is a retarget boundary; despite
`allowMinDifficultyBlocks = true` and a candidate timestamp far beyond
`2 * targetSpacing`, `GetNextWorkRequired` retargets (returning `0x1c00c000`)
instead of `Encode(powLimit) = 0x1d010000`. -/
theorem getNextWork_minDifficulty_counterexample :
    (⟨2 ^ 224, 8, 2, true, false⟩ : ConsensusParams).fPowAllowMinDifficultyBlocks
        = true
    ∧ (100 : Int) > (6 : Int)
        + (⟨2 ^ 224, 8, 2, true, false⟩ : ConsensusParams).nPowTargetSpacing * 2
    ∧ getNextWorkRequired
        (CBlockIndex.mk 3 6 0x1c010000 (some (CBlockIndex.mk 2 4 0x1c010000
          (some (CBlockIndex.mk 1 2 0x1c010000
            (some (CBlockIndex.mk 0 0 0x1c010000 none))))))) 100
        ⟨2 ^ 224, 8, 2, true, false⟩ = some 0x1c00c000
    ∧ (0x1c00c000 : Nat)
        ≠ encodeCompact (⟨2 ^ 224, 8, 2, true, false⟩ : ConsensusParams).powLimit := by
  decide

/-- C5 (amended): when `allowMinDifficultyBlocks = true`, the candidate
timestamp is more than `2 * targetSpacing` past the last header's, and
`lastHeader.height + 1` is not a retarget boundary, `GetNextWorkRequired`
returns `Encode(powLimit)` regardless of the last header's bits; at a
retarget boundary the code retargets instead, so the boundary hypothesis is
required. -/
theorem getNextWork_minDifficulty (pindexLast : CBlockIndex) (blockTime : Int)
    (params : ConsensusParams)
    (hboundary : (pindexLast.nHeight + 1).tmod params.interval ≠ 0)
    (hmin : params.fPowAllowMinDifficultyBlocks = true)
    (hgap : blockTime > pindexLast.nTime + params.nPowTargetSpacing * 2) :
    getNextWorkRequired pindexLast blockTime params
      = some (encodeCompact params.powLimit) := by
  unfold getNextWorkRequired
  dsimp only
  rw [if_pos hboundary, hmin, if_pos rfl, if_pos hgap]

theorem getNextWork_minDifficulty_witness :
    getNextWorkRequired (CBlockIndex.mk 1 0 0x1c010000 none) 100
        ⟨2 ^ 224, 8, 2, true, false⟩
      = some (encodeCompact
          (⟨2 ^ 224, 8, 2, true, false⟩ : ConsensusParams).powLimit) :=
  getNextWork_minDifficulty (CBlockIndex.mk 1 0 0x1c010000 none) 100
    ⟨2 ^ 224, 8, 2, true, false⟩ (by decide) rfl (by decide)

theorem tmod_eq_zero_iff_dvd (a b : Int) : a.tmod b = 0 ↔ b ∣ a := by
  constructor
  · intro h
    have h2 := Int.tmod_add_tdiv a b
    exact ⟨a.tdiv b, by omega⟩
  · rintro ⟨k, rfl⟩
    rcases eq_or_ne b 0 with rfl | hb
    · simp [Int.tmod_zero]
    · have h2 := Int.tmod_add_tdiv (b * k) b
      have h3 : (b * k).tdiv b = k := Int.mul_tdiv_cancel_left k hb
      rw [h3] at h2
      omega

/-- Number of headers reachable through `pprev` links, tip included. -/
def chainLen : CBlockIndex → Nat
  | .mk _ _ _ none => 1
  | .mk _ _ _ (some p) => chainLen p + 1

/-- Reference walk from the claim for C6: the first ancestor, walking back
from the given header, whose height is a multiple of the interval or whose
stored bits differ from the encoded `powLimit`; the oldest ancestor when
none breaks the walk earlier. -/
def firstNonMinAncestor (interval : Int) (nProofOfWorkLimit : Nat) :
    CBlockIndex → CBlockIndex
  | .mk h t b pp =>
    if interval ∣ h ∨ b ≠ nProofOfWorkLimit then .mk h t b pp
    else
      match pp with
      | none => .mk h t b pp
      | some p => firstNonMinAncestor interval nProofOfWorkLimit p

theorem walkNonMin_eq_aux (interval : Int) (limit : Nat) (n : Nat) :
    ∀ b : CBlockIndex, chainLen b ≤ n →
      walkNonMin interval limit b = firstNonMinAncestor interval limit b := by
  induction n with
  | zero =>
    intro b hb
    rcases b with ⟨h, t, bits, _ | p⟩ <;> simp [chainLen] at hb
  | succ n ih =>
    intro b hb
    rcases b with ⟨h, t, bits, _ | p⟩
    · unfold walkNonMin firstNonMinAncestor
      split_ifs <;> rfl
    · have hlen : chainLen p ≤ n := by
        have : chainLen (.mk h t bits (some p)) = chainLen p + 1 := rfl
        omega
      unfold walkNonMin firstNonMinAncestor
      by_cases hc : h.tmod interval ≠ 0 ∧ bits = limit
      · have hnd : ¬ (interval ∣ h ∨ bits ≠ limit) := by
          rw [← tmod_eq_zero_iff_dvd]
          tauto
        rw [if_pos hc, if_neg hnd]
        exact ih p hlen
      · have hd : interval ∣ h ∨ bits ≠ limit := by
          rw [← tmod_eq_zero_iff_dvd]
          tauto
        rw [if_neg hc, if_pos hd]

theorem walkNonMin_eq (interval : Int) (limit : Nat) (b : CBlockIndex) :
    walkNonMin interval limit b = firstNonMinAncestor interval limit b :=
  walkNonMin_eq_aux interval limit (chainLen b) b le_rfl

/-- C6: off a retarget boundary, with `allowMinDifficultyBlocks = true` and a
candidate timestamp within `2 * targetSpacing` of the last header's,
`GetNextWorkRequired` returns the stored bits of the first ancestor (walking
back from the last header) whose height is a multiple of the interval or
whose bits differ from `Encode(powLimit)`, or of the oldest ancestor when
none breaks the walk earlier. -/
theorem getNextWork_walk (pindexLast : CBlockIndex) (blockTime : Int)
    (params : ConsensusParams)
    (hboundary : (pindexLast.nHeight + 1).tmod params.interval ≠ 0)
    (hmin : params.fPowAllowMinDifficultyBlocks = true)
    (hgap : ¬ blockTime > pindexLast.nTime + params.nPowTargetSpacing * 2) :
    getNextWorkRequired pindexLast blockTime params
      = some ((firstNonMinAncestor params.interval
          (encodeCompact params.powLimit) pindexLast).nBits) := by
  unfold getNextWorkRequired
  dsimp only
  rw [if_pos hboundary, hmin, if_pos rfl, if_neg hgap, walkNonMin_eq]

theorem getNextWork_walk_witness :
    getNextWorkRequired
        (CBlockIndex.mk 1 10 77 (some (CBlockIndex.mk 0 0 99 none))) 11
        ⟨2 ^ 224, 8, 2, true, false⟩
      = some ((firstNonMinAncestor
          (⟨2 ^ 224, 8, 2, true, false⟩ : ConsensusParams).interval
          (encodeCompact
            (⟨2 ^ 224, 8, 2, true, false⟩ : ConsensusParams).powLimit)
          (CBlockIndex.mk 1 10 77 (some (CBlockIndex.mk 0 0 99 none)))).nBits) :=
  getNextWork_walk (CBlockIndex.mk 1 10 77 (some (CBlockIndex.mk 0 0 99 none)))
    11 ⟨2 ^ 224, 8, 2, true, false⟩ (by decide) rfl (by decide)

/-- C7 counterexample: with decoded target 1, `targetTimespan = 8` (clamp
bounds `[2, 32]`) and actual timespans 3 < 4 both strictly inside the bounds,
the computed new target is 0 in both cases — truncating division makes the
map non-strict even away from the clamp boundaries. -/
theorem newTargetValue_mono_counterexample :
    (8 : Int).tdiv 4 < 3 ∧ (3 : Int) < 4 ∧ (4 : Int) < 8 * 4
      ∧ (decodeCompact 0x03000001).target = 1
      ∧ newTargetValue 0x03000001 8 (2 ^ 224) 3
          = newTargetValue 0x03000001 8 (2 ^ 224) 4
      ∧ ¬ newTargetValue 0x03000001 8 (2 ^ 224) 3
          < newTargetValue 0x03000001 8 (2 ^ 224) 4 := by
  decide

/-- C7 (amended): all else fixed, a larger actual timespan within the clamp
bounds never yields a smaller new target (weak monotonicity; strictness fails
because the 256-bit division truncates), provided the 256-bit product of the
decoded target and the timespan does not wrap. -/
theorem newTargetValue_mono (nBits : Nat) (nPowTargetTimespan : Int)
    (powLimit : Nat) (a1 a2 : Int)
    (hT : 0 < nPowTargetTimespan)
    (hTfit : nPowTargetTimespan * 4 < 2 ^ 63)
    (h1 : nPowTargetTimespan.tdiv 4 ≤ a1) (h12 : a1 ≤ a2)
    (h2 : a2 ≤ nPowTargetTimespan * 4)
    (hnowrap : (decodeCompact nBits).target * toU64 a2 < 2 ^ 256) :
    newTargetValue nBits nPowTargetTimespan powLimit a1
      ≤ newTargetValue nBits nPowTargetTimespan powLimit a2 := by
  have h0 : (0 : Int) ≤ nPowTargetTimespan.tdiv 4 :=
    Int.tdiv_nonneg (le_of_lt hT) (by norm_num)
  have hu1 : toU64 a1 = a1.toNat := by
    unfold toU64
    rw [Int.emod_eq_of_lt (by omega) (by omega)]
  have hu2 : toU64 a2 = a2.toNat := by
    unfold toU64
    rw [Int.emod_eq_of_lt (by omega) (by omega)]
  have hule : toU64 a1 ≤ toU64 a2 := by
    rw [hu1, hu2]
    exact Int.toNat_le_toNat h12
  unfold newTargetValue
  dsimp only
  rw [if_neg (by omega : ¬ a1 < nPowTargetTimespan.tdiv 4),
    if_neg (by omega : ¬ a1 > nPowTargetTimespan * 4),
    if_neg (by omega : ¬ a2 < nPowTargetTimespan.tdiv 4),
    if_neg (by omega : ¬ a2 > nPowTargetTimespan * 4)]
  have hm1 : (decodeCompact nBits).target * toU64 a1 < 2 ^ 256 :=
    lt_of_le_of_lt (Nat.mul_le_mul_left _ hule) hnowrap
  have key : (decodeCompact nBits).target * toU64 a1 % 2 ^ 256
        / toU64 nPowTargetTimespan
      ≤ (decodeCompact nBits).target * toU64 a2 % 2 ^ 256
        / toU64 nPowTargetTimespan := by
    rw [Nat.mod_eq_of_lt hm1, Nat.mod_eq_of_lt hnowrap]
    exact Nat.div_le_div_right (Nat.mul_le_mul_left _ hule)
  split_ifs <;> omega

theorem newTargetValue_mono_witness :
    newTargetValue 0x1c010000 8 (2 ^ 224) 3
      ≤ newTargetValue 0x1c010000 8 (2 ^ 224) 4 :=
  newTargetValue_mono 0x1c010000 8 (2 ^ 224) 3 4 (by decide) (by decide)
    (by decide) (by decide) (by decide) (by decide)

end RouletteCoin
